import Mathlib

/-!
# Verification of the NERVE PDF-parsing quality pipeline

Shallow embedding of `nerve/parsing.py` (repository `spiritual-machine/nerve-bio`).
Python strings are modelled as `List Char` (a Python `str` is a sequence of Unicode
codepoints, and Lean's `Char` is exactly a Unicode scalar value).  Python's float
arithmetic on the quality score is modelled as exact rational arithmetic (`ℚ`).
Fallible code (a `ZeroDivisionError`) is modelled with `Option`.

The external collaborators (`pymupdf`, `pytesseract`, `ftfy`) are not part of the
repository source.  `ftfy.fix_text` — the general mojibake-repair pass called at the
end of `cleanText` — is modelled as an abstract function parameter, since its body is
not in the repository; properties that depend on it are stated under an explicit
contract on that parameter.
-/

namespace Nerve

/-! ## Global configuration (`parsing.py`, lines 40-57) -/

/-- `testTXTDir = 'test_txts'` (line 41). -/
def testTXTDir : List Char := "test_txts".data

/-- `qualityScoreThreshold = 0.92` (line 42); the Python float literal is modelled as
the exact rational 92/100. -/
def qualityScoreThreshold : ℚ := 92 / 100

/-- `allowedChars` (lines 47-53): inclusive codepoint ranges. -/
def allowedChars : List (Nat × Nat) :=
  [(0x0020, 0x007E), (0x00A0, 0x00FF), (0x2000, 0x206F), (0x0370, 0x03FF), (0x2200, 0x22FF)]

/-- `whiteListedChars = {'◦','˚','°'}` (line 54). -/
def whiteListedChars : List Char := [ '◦', '˚', '°']

/-- `blackListedChars` (line 56), 50 codepoints, written in the order of the source
set literal (a Python `set` is used only for membership, so order is immaterial). -/
def blackListedChars : List Char :=
  [ '¤', '§', '©', '®', '¶', '•', '†', '‡', '◦', '˚', '※', '⁂', '‽', '⁉', '‥',
    '☺', '☻', '♥', '♦', '♣', '♠', '✦', '✧', '★', '☆', '✪', '☀', '☁', '☂', '☃', '☄',
    '\uFFFD', '\u200B', '\u200C', '\u200D', '\u2060', '\uFEFF', '\u202A', '\u202B',
    '\u202C', '\u202D', '\u202E', '\u2066', '\u2067', '\u2068', '\u2069',
    '▪', '▫', '▶', '◀']

/-- `allowedEscapedChars = ['\n', '\r', '\t']` (line 57). -/
def allowedEscapedChars : List Char := [ '\n', '\r', '\t']

/-! ## `getNewTXTPath` (lines 59-66)

`os.path.join(testTXTDir, fileName[:-4] + '.txt')`: POSIX join of a relative
directory with no trailing slash inserts a single `/`; Python's `fileName[:-4]`
drops the last four codepoints (all of them when the name is shorter). -/

def getNewTXTPath (fileName : List Char) : List Char :=
  testTXTDir ++ ( '/' :: (fileName.take (fileName.length - 4) ++ ".txt".data))

/-! ## `textSlicer` (lines 68-75)

Python's argumentless `str.split()` splits on runs of Unicode whitespace and
discards empty chunks.  `pyIsSpace` enumerates exactly the codepoints for which
Python's `str.isspace` holds (the split set of CPython). -/

def pyIsSpace (c : Char) : Bool :=
  (0x09 ≤ c.toNat && c.toNat ≤ 0x0D) || c.toNat = 0x20 ||
  (0x1C ≤ c.toNat && c.toNat ≤ 0x1F) || c.toNat = 0x85 || c.toNat = 0xA0 ||
  c.toNat = 0x1680 || (0x2000 ≤ c.toNat && c.toNat ≤ 0x200A) ||
  c.toNat = 0x2028 || c.toNat = 0x2029 || c.toNat = 0x202F ||
  c.toNat = 0x205F || c.toNat = 0x3000

/-- Accumulating splitter: `acc` holds the (reversed) word currently being read. -/
def splitAux : List Char → List Char → List (List Char)
  | [], acc => if acc = [] then [] else [acc.reverse]
  | c :: cs, acc =>
    if pyIsSpace c then
      if acc = [] then splitAux cs [] else acc.reverse :: splitAux cs []
    else splitAux cs (c :: acc)

/-- `textSlicer(sampleText)`: `sampleText.split()`. -/
def textSlicer (sampleText : List Char) : List (List Char) :=
  splitAux sampleText []

/-! ## `checkInvalidChars` (lines 78-98): the character classifier and word validator

Per character the loop does: allowed escaped char → keep valid; whitelisted → keep
valid; out of every allowed range → invalid; in range but blacklisted → invalid.
`charInvalid` is that per-character decision (the spec's `CharacterClassifier`,
`true` = Invalid); `checkInvalidChars` folds it over the word exactly as the
`isInvalid` accumulator loop does. -/

def charInvalid (c : Char) : Bool :=
  if c ∈ allowedEscapedChars then false
  else if c ∈ whiteListedChars then false
  else if !(allowedChars.any (fun r => r.1 ≤ c.toNat && c.toNat ≤ r.2)) then true
  else if c ∈ blackListedChars then true
  else false

def checkInvalidChars (word : List Char) : Bool :=
  word.foldl (fun isInvalid c => if charInvalid c then true else isInvalid) false

/-! ## `checktextQuality` (lines 131-150)

`qualityScore = 1 - (invalidWords / (invalidWords + validWords))`.  When the text
slices to zero words the Python expression raises `ZeroDivisionError`; that fault is
modelled as `none`. -/

def checktextQuality (text : List Char) : Option ℚ :=
  let textWords := textSlicer text
  let invalidWords : Nat := (textWords.filter (fun w => checkInvalidChars w)).length
  let validWords : Nat := (textWords.filter (fun w => !checkInvalidChars w)).length
  if invalidWords + validWords = 0 then none
  else some (1 - (invalidWords : ℚ) / ((invalidWords : ℚ) + (validWords : ℚ)))

/-! ## `fixText` (lines 101-115): the text repairer

`str.replace(old, new)` rewrites every non-overlapping occurrence of `old`, scanning
left to right.  Every ligature key is a single codepoint and every broken-accent key
is a two-codepoint sequence replaced by a single codepoint, so the two shapes are
embedded as `replaceChar` (one-codepoint pattern) and `replacePair` (two-codepoint
pattern, one-codepoint replacement). -/

/-- `text.replace(p, r)` for a single-character pattern `p`. -/
def replaceChar (p : Char) (r : List Char) : List Char → List Char
  | [] => []
  | c :: cs => if c = p then r ++ replaceChar p r cs else c :: replaceChar p r cs

/-- `text.replace(x ++ m, c)` for a two-character pattern: Python's leftmost,
non-overlapping scan (a match consumes both characters). -/
def replacePair (x m c : Char) : List Char → List Char
  | [] => []
  | [a] => [a]
  | a :: b :: rest =>
    if a = x ∧ b = m then c :: replacePair x m c rest
    else a :: replacePair x m c (b :: rest)

/-- The `ligatures` dict (line 108) in insertion order. -/
def ligatures : List (Char × List Char) :=
  [( 'ﬀ', "ff".data), ( 'ﬁ', "fi".data), ( 'ﬂ', "fl".data), ( 'ﬃ', "ffi".data),
   ( 'ﬄ', "ffl".data), ( 'æ', "ae".data), ( 'œ', "oe".data)]

/-- U+0060 GRAVE ACCENT, the second character of the grave broken-accent keys. -/
def graveChar : Char := Char.ofNat 0x60

/-- The `brokenAccents` dict (line 112) in insertion order.  The source literal
repeats the key `'I´'`; a Python dict keeps one entry at the first-insertion
position (both occurrences map to `'Í'`), so the embedded list has 45 entries.
Each entry is `(x, m, c)`: the two-character key `x ++ m` and its replacement `c`. -/
def brokenAccents : List (Char × Char × Char) :=
  [( 'ı', '´', 'í'), ( 'I', '´', 'Í'), ( 'i', '´', 'í'),
   ( 'a', '´', 'á'), ( 'A', '´', 'Á'), ( 'e', '´', 'é'), ( 'E', '´', 'É'),
   ( 'o', '´', 'ó'), ( 'O', '´', 'Ó'), ( 'u', '´', 'ú'), ( 'U', '´', 'Ú'),
   ( 'n', '~', 'ñ'), ( 'N', '~', 'Ñ'), ( 'c', '¸', 'ç'), ( 'C', '¸', 'Ç'),
   ( 'a', graveChar, 'à'), ( 'A', graveChar, 'À'), ( 'e', graveChar, 'è'),
   ( 'E', graveChar, 'È'), ( 'i', graveChar, 'ì'), ( 'I', graveChar, 'Ì'),
   ( 'o', graveChar, 'ò'), ( 'O', graveChar, 'Ò'), ( 'u', graveChar, 'ù'),
   ( 'U', graveChar, 'Ù'),
   ( 'a', '^', 'â'), ( 'A', '^', 'Â'), ( 'e', '^', 'ê'), ( 'E', '^', 'Ê'),
   ( 'i', '^', 'î'), ( 'I', '^', 'Î'), ( 'o', '^', 'ô'), ( 'O', '^', 'Ô'),
   ( 'u', '^', 'û'), ( 'U', '^', 'Û'),
   ( 'a', '¨', 'ä'), ( 'A', '¨', 'Ä'), ( 'e', '¨', 'ë'), ( 'E', '¨', 'Ë'),
   ( 'i', '¨', 'ï'), ( 'I', '¨', 'Ï'), ( 'o', '¨', 'ö'), ( 'O', '¨', 'Ö'),
   ( 'u', '¨', 'ü'), ( 'U', '¨', 'Ü')]

/-- The ligature pass: the `for key in ligatures.keys(): text = text.replace(...)`
loop (lines 109-110). -/
def fixLigatures (text : List Char) : List Char :=
  ligatures.foldl (fun t e => replaceChar e.1 e.2 t) text

/-- The broken-accent pass: the loop of lines 113-114. -/
def fixAccents (text : List Char) : List Char :=
  brokenAccents.foldl (fun t e => replacePair e.1 e.2.1 e.2.2 t) text

/-- `fixText(text)`: ligature pass, then broken-accent pass. -/
def fixText (text : List Char) : List Char :=
  fixAccents (fixLigatures text)

/-! ## `cleanText` (lines 117-128)

The loop `for char in text: if char in blackListedChars: text = text.replace(char, '')`
iterates over the *original* string object (Python evaluates the iterable once)
while rebinding `text`; it is embedded as a fold over the original codepoints with
the accumulating string as state.  The final `ftfy.fix_text` call is external
third-party code, taken as an abstract parameter `ffy`. -/

def removeBlacklisted (text : List Char) : List Char :=
  List.foldl (fun t c => if c ∈ blackListedChars then replaceChar c [] t else t) text text

def cleanText (ffy : List Char → List Char) (text : List Char) : List Char :=
  ffy (removeBlacklisted text)

/-- Contract for the abstract mojibake-repair collaborator: it introduces no
blacklisted codepoint into a string that has none. -/
def PreservesBlacklistFree (ffy : List Char → List Char) : Prop :=
  ∀ s : List Char, (∀ c ∈ blackListedChars, c ∉ s) → ∀ c ∈ blackListedChars, c ∉ ffy s

/-! ## `transcribePDF` (lines 153-177): the extraction pipeline

The function (1) writes the raw per-page extractor output, UTF-8 encoded, to
`txtPath`; (2) reads it back and applies `fixText`; (3) scores the repaired text;
(4) only when the score is strictly above the threshold, cleans the repaired text
and overwrites `txtPath` with it.  There is no other branch: nothing further
happens on a low score, and `pytesseract` (imported on line 26 with the note
"actually implement this") is never called, so the OCR-invocation count is 0 on
every path.  The observable behaviour is modelled as the chronological list of
file writes plus the outcome; `outcome = none` models the `ZeroDivisionError`
escaping from `checktextQuality` on a zero-word document. -/

inductive Outcome
  | Accepted
  | RejectedLowQuality
deriving DecidableEq

structure PipelineResult where
  writes : List (List Char × List Char)
  outcome : Option Outcome
  ocrCalls : Nat
deriving DecidableEq

def transcribePDF (ffy : List Char → List Char) (pdfFile rawText : List Char) :
    PipelineResult :=
  let txtPath := getNewTXTPath pdfFile
  let fixedText := fixText rawText
  match checktextQuality fixedText with
  | none => ⟨[(txtPath, rawText)], none, 0⟩
  | some q =>
    if qualityScoreThreshold < q then
      ⟨[(txtPath, rawText), (txtPath, cleanText ffy fixedText)], some Outcome.Accepted, 0⟩
    else
      ⟨[(txtPath, rawText)], some Outcome.RejectedLowQuality, 0⟩

/-- Replay a chronological write list against a file system (association list from
path to contents): a later write to the same path overwrites the earlier one. -/
def setFile (fs : List (List Char × List Char)) (p c : List Char) :
    List (List Char × List Char) :=
  if fs.any (fun e => e.1 = p) then fs.map (fun e => if e.1 = p then (p, c) else e)
  else fs ++ [(p, c)]

def finalFS (writes : List (List Char × List Char)) : List (List Char × List Char) :=
  writes.foldl (fun fs w => setFile fs w.1 w.2) []

/-! ## Lemmas about `replaceChar` -/

theorem mem_replaceChar {a p : Char} {r s : List Char} (h : a ∈ replaceChar p r s) :
    (a ∈ s ∧ a ≠ p) ∨ a ∈ r := by
  induction s with
  | nil => simp [replaceChar] at h
  | cons c cs ih =>
    by_cases hc : c = p
    · rw [replaceChar, if_pos hc] at h
      rcases List.mem_append.mp h with h1 | h2
      · exact Or.inr h1
      · rcases ih h2 with ⟨h3, h4⟩ | h5
        · exact Or.inl ⟨List.mem_cons_of_mem _ h3, h4⟩
        · exact Or.inr h5
    · rw [replaceChar, if_neg hc] at h
      rcases List.mem_cons.mp h with h1 | h2
      · exact Or.inl ⟨h1 ▸ List.mem_cons_self _ _, h1 ▸ hc⟩
      · rcases ih h2 with ⟨h3, h4⟩ | h5
        · exact Or.inl ⟨List.mem_cons_of_mem _ h3, h4⟩
        · exact Or.inr h5

theorem replaceChar_self_not_mem {p : Char} {r s : List Char} (h : p ∉ r) :
    p ∉ replaceChar p r s :=
  fun hm => (mem_replaceChar hm).elim (fun x => x.2 rfl) h

theorem replaceChar_of_not_mem {p : Char} {r s : List Char} (h : p ∉ s) :
    replaceChar p r s = s := by
  induction s with
  | nil => rfl
  | cons c cs ih =>
    have hc : ¬ c = p := fun e => h (e ▸ List.mem_cons_self c cs)
    rw [replaceChar, if_neg hc, ih (fun hm => h (List.mem_cons_of_mem _ hm))]

/-! ## Lemmas about the ligature pass -/

theorem ligFold_not_mem {x : Char} {L : List (Char × List Char)}
    (hout : ∀ e ∈ L, x ∉ e.2) :
    ∀ {s : List Char}, x ∉ s →
      x ∉ L.foldl (fun t e => replaceChar e.1 e.2 t) s := by
  induction L with
  | nil => intro s h; simpa using h
  | cons e L ih =>
    intro s h
    rw [List.foldl_cons]
    refine ih (fun d hd => hout d (List.mem_cons_of_mem _ hd)) ?_
    intro hm
    rcases mem_replaceChar hm with ⟨h1, _⟩ | h2
    · exact h h1
    · exact hout e (List.mem_cons_self _ _) h2

theorem ligFold_clears {x : Char} {L : List (Char × List Char)}
    (hx : ∃ r, (x, r) ∈ L) (hout : ∀ e ∈ L, x ∉ e.2) :
    ∀ s : List Char, x ∉ L.foldl (fun t e => replaceChar e.1 e.2 t) s := by
  induction L with
  | nil => rcases hx with ⟨r, hr⟩; simp at hr
  | cons e L ih =>
    intro s
    rw [List.foldl_cons]
    by_cases he : e.1 = x
    · refine ligFold_not_mem (fun d hd => hout d (List.mem_cons_of_mem _ hd)) ?_
      have := replaceChar_self_not_mem (p := x) (r := e.2) (s := s)
        (hout e (List.mem_cons_self _ _))
      rw [he]
      exact this
    · rcases hx with ⟨r, hr⟩
      rcases List.mem_cons.mp hr with h1 | h2
      · exact absurd (congrArg Prod.fst h1.symm) he
      · exact ih ⟨r, h2⟩ (fun d hd => hout d (List.mem_cons_of_mem _ hd)) _

theorem ligFold_id {L : List (Char × List Char)} :
    ∀ {s : List Char}, (∀ e ∈ L, e.1 ∉ s) →
      L.foldl (fun t e => replaceChar e.1 e.2 t) s = s := by
  induction L with
  | nil => intro s _; rfl
  | cons e L ih =>
    intro s h
    rw [List.foldl_cons, replaceChar_of_not_mem (h e (List.mem_cons_self _ _)),
      ih (fun d hd => h d (List.mem_cons_of_mem _ hd))]

/-! ## Lemmas about `replacePair`

`hasPair x m s` says the two-character sequence `x, m` occurs contiguously in `s`.
The central facts: a `replacePair` pass whose replacement character is neither `x`
nor `m` can never create an occurrence of `x, m` (its single-character output
separates the text on both sides), the pass for the key `x, m` itself removes every
occurrence, and a pass on a string without its key is the identity. -/

def hasPair (x m : Char) : List Char → Bool
  | [] => false
  | [_] => false
  | a :: b :: rest => (a == x && b == m) || hasPair x m (b :: rest)

theorem hasPair_tail {x m a : Char} {t : List Char} (h : hasPair x m (a :: t) = false) :
    hasPair x m t = false := by
  cases t with
  | nil => rfl
  | cons b r =>
    simp only [hasPair, Bool.or_eq_false_iff] at h
    exact h.2

theorem hasPair_cons_false {x m a : Char} {w : List Char}
    (h1 : ∀ b t, w = b :: t → ¬(a = x ∧ b = m)) (h2 : hasPair x m w = false) :
    hasPair x m (a :: w) = false := by
  cases w with
  | nil => rfl
  | cons b t =>
    simp only [hasPair, Bool.or_eq_false_iff]
    refine ⟨?_, h2⟩
    have hnot := h1 b t rfl
    by_cases hax : a = x
    · by_cases hbm : b = m
      · exact absurd ⟨hax, hbm⟩ hnot
      · simp [hbm]
    · simp [hax]

theorem replacePair_cons_cases (x m c a : Char) (s : List Char) :
    (∃ t, replacePair x m c (a :: s) = a :: t) ∨
      (∃ t, replacePair x m c (a :: s) = c :: t) := by
  cases s with
  | nil => exact Or.inl ⟨[], rfl⟩
  | cons b r =>
    by_cases h : a = x ∧ b = m
    · simp only [replacePair, if_pos h]
      exact Or.inr ⟨_, rfl⟩
    · simp only [replacePair, if_neg h]
      exact Or.inl ⟨_, rfl⟩

theorem hasPair_replacePair_aux {x m y n d : Char} (hdx : d ≠ x) (hdm : d ≠ m) :
    ∀ (N : Nat) (s : List Char), s.length ≤ N →
      ((y = x ∧ n = m) ∨ hasPair x m s = false) →
      hasPair x m (replacePair y n d s) = false := by
  intro N
  induction N with
  | zero =>
    intro s hs _
    have hnil : s = [] := List.length_eq_zero.mp (Nat.le_zero.mp hs)
    subst hnil; rfl
  | succ N ih =>
    intro s hs hkey
    rcases s with _ | ⟨a, _ | ⟨b, rest⟩⟩
    · rfl
    · rfl
    · have hlen2 : rest.length ≤ N := by
        simp only [List.length_cons] at hs; omega
      have hlen1 : (b :: rest).length ≤ N := by
        simp only [List.length_cons] at hs ⊢; omega
      by_cases hmatch : a = y ∧ b = n
      · simp only [replacePair, if_pos hmatch]
        have hrest : (y = x ∧ n = m) ∨ hasPair x m rest = false := by
          rcases hkey with hk | hk
          · exact Or.inl hk
          · exact Or.inr (hasPair_tail (hasPair_tail hk))
        refine hasPair_cons_false (fun b' t' _ hxm => hdx hxm.1) (ih rest hlen2 hrest)
      · simp only [replacePair, if_neg hmatch]
        have hbr : (y = x ∧ n = m) ∨ hasPair x m (b :: rest) = false := by
          rcases hkey with hk | hk
          · exact Or.inl hk
          · exact Or.inr (hasPair_tail hk)
        refine hasPair_cons_false ?_ (ih (b :: rest) hlen1 hbr)
        intro b' t' heq hxm
        rcases replacePair_cons_cases y n d b rest with ⟨t0, h0⟩ | ⟨t0, h0⟩
        · rw [h0] at heq
          injection heq with hb _
          have hbm : b = m := hb.trans hxm.2
          rcases hkey with hk | hk
          · exact hmatch ⟨hxm.1.trans hk.1.symm, hbm.trans hk.2.symm⟩
          · simp only [hasPair, Bool.or_eq_false_iff] at hk
            have h1 := hk.1
            rw [hxm.1, hbm] at h1
            simp at h1
        · rw [h0] at heq
          injection heq with hb _
          exact hdm (hb.trans hxm.2)

theorem hasPair_replacePair {x m y n d : Char} (hdx : d ≠ x) (hdm : d ≠ m)
    (s : List Char) (hkey : (y = x ∧ n = m) ∨ hasPair x m s = false) :
    hasPair x m (replacePair y n d s) = false :=
  hasPair_replacePair_aux hdx hdm s.length s le_rfl hkey

theorem replacePair_of_hasPair_false_aux {x m c : Char} :
    ∀ (N : Nat) (s : List Char), s.length ≤ N → hasPair x m s = false →
      replacePair x m c s = s := by
  intro N
  induction N with
  | zero =>
    intro s hs _
    have hnil : s = [] := List.length_eq_zero.mp (Nat.le_zero.mp hs)
    subst hnil; rfl
  | succ N ih =>
    intro s hs h
    rcases s with _ | ⟨a, _ | ⟨b, rest⟩⟩
    · rfl
    · rfl
    · simp only [hasPair, Bool.or_eq_false_iff] at h
      have hmatch : ¬(a = x ∧ b = m) := by
        intro hp
        have := h.1
        rw [hp.1, hp.2] at this
        simp at this
      simp only [replacePair, if_neg hmatch]
      have hlen : (b :: rest).length ≤ N := by
        simp only [List.length_cons] at hs ⊢; omega
      rw [ih (b :: rest) hlen h.2]

theorem replacePair_of_hasPair_false {x m c : Char} {s : List Char}
    (h : hasPair x m s = false) : replacePair x m c s = s :=
  replacePair_of_hasPair_false_aux s.length s le_rfl h

theorem mem_replacePair_aux {z x m c : Char} :
    ∀ (N : Nat) (s : List Char), s.length ≤ N → z ∈ replacePair x m c s →
      z ∈ s ∨ z = c := by
  intro N
  induction N with
  | zero =>
    intro s hs h
    have hnil : s = [] := List.length_eq_zero.mp (Nat.le_zero.mp hs)
    subst hnil; simp [replacePair] at h
  | succ N ih =>
    intro s hs h
    rcases s with _ | ⟨a, _ | ⟨b, rest⟩⟩
    · simp [replacePair] at h
    · exact Or.inl h
    · have hlen2 : rest.length ≤ N := by
        simp only [List.length_cons] at hs; omega
      have hlen1 : (b :: rest).length ≤ N := by
        simp only [List.length_cons] at hs ⊢; omega
      by_cases hmatch : a = x ∧ b = m
      · simp only [replacePair, if_pos hmatch] at h
        rcases List.mem_cons.mp h with h1 | h2
        · exact Or.inr h1
        · rcases ih rest hlen2 h2 with h3 | h4
          · exact Or.inl (List.mem_cons_of_mem _ (List.mem_cons_of_mem _ h3))
          · exact Or.inr h4
      · simp only [replacePair, if_neg hmatch] at h
        rcases List.mem_cons.mp h with h1 | h2
        · exact Or.inl (h1 ▸ List.mem_cons_self _ _)
        · rcases ih (b :: rest) hlen1 h2 with h3 | h4
          · exact Or.inl (List.mem_cons_of_mem _ h3)
          · exact Or.inr h4

theorem mem_replacePair {z x m c : Char} {s : List Char}
    (h : z ∈ replacePair x m c s) : z ∈ s ∨ z = c :=
  mem_replacePair_aux s.length s le_rfl h

/-! ## Lemmas about the broken-accent pass -/

theorem accFold_not_hasPair {x m : Char} {L : List (Char × Char × Char)}
    (hout : ∀ e ∈ L, e.2.2 ≠ x ∧ e.2.2 ≠ m) :
    ∀ {s : List Char}, hasPair x m s = false →
      hasPair x m (L.foldl (fun t e => replacePair e.1 e.2.1 e.2.2 t) s) = false := by
  induction L with
  | nil => intro s h; simpa using h
  | cons e L ih =>
    intro s h
    rw [List.foldl_cons]
    refine ih (fun d hd => hout d (List.mem_cons_of_mem _ hd)) ?_
    have he := hout e (List.mem_cons_self _ _)
    exact hasPair_replacePair he.1 he.2 s (Or.inr h)

theorem accFold_clears {x m : Char} {L : List (Char × Char × Char)}
    (hx : ∃ c, (x, m, c) ∈ L) (hout : ∀ e ∈ L, e.2.2 ≠ x ∧ e.2.2 ≠ m) :
    ∀ s : List Char,
      hasPair x m (L.foldl (fun t e => replacePair e.1 e.2.1 e.2.2 t) s) = false := by
  induction L with
  | nil => rcases hx with ⟨c, hc⟩; simp at hc
  | cons e L ih =>
    intro s
    rw [List.foldl_cons]
    by_cases he : e.1 = x ∧ e.2.1 = m
    · refine accFold_not_hasPair (fun d hd => hout d (List.mem_cons_of_mem _ hd)) ?_
      have hd := hout e (List.mem_cons_self _ _)
      exact hasPair_replacePair hd.1 hd.2 s (Or.inl he)
    · rcases hx with ⟨c, hc⟩
      rcases List.mem_cons.mp hc with h1 | h2
      · exact absurd ⟨congrArg (fun p => p.1) h1.symm,
          congrArg (fun p => p.2.1) h1.symm⟩ he
      · exact ih ⟨c, h2⟩ (fun d hd => hout d (List.mem_cons_of_mem _ hd)) _

theorem accFold_id {L : List (Char × Char × Char)} :
    ∀ {s : List Char}, (∀ e ∈ L, hasPair e.1 e.2.1 s = false) →
      L.foldl (fun t e => replacePair e.1 e.2.1 e.2.2 t) s = s := by
  induction L with
  | nil => intro s _; rfl
  | cons e L ih =>
    intro s h
    rw [List.foldl_cons, replacePair_of_hasPair_false (h e (List.mem_cons_self _ _)),
      ih (fun d hd => h d (List.mem_cons_of_mem _ hd))]

theorem accFold_not_mem {z : Char} {L : List (Char × Char × Char)}
    (hout : ∀ e ∈ L, e.2.2 ≠ z) :
    ∀ {s : List Char}, z ∉ s →
      z ∉ L.foldl (fun t e => replacePair e.1 e.2.1 e.2.2 t) s := by
  induction L with
  | nil => intro s h; simpa using h
  | cons e L ih =>
    intro s h
    rw [List.foldl_cons]
    refine ih (fun d hd => hout d (List.mem_cons_of_mem _ hd)) ?_
    intro hm
    rcases mem_replacePair hm with h1 | h2
    · exact h h1
    · exact hout e (List.mem_cons_self _ _) h2.symm

/-! ## No repair key survives a full `fixText` pass

The side conditions are finite facts about the concrete maps, checked by `decide`:
no ligature key occurs in any ligature replacement string, no broken-accent
replacement character is a ligature key, and no broken-accent replacement character
is the first or second character of any broken-accent key. -/

theorem lig_keys_not_in_outputs :
    ∀ e ∈ ligatures, ∀ d ∈ ligatures, e.1 ∉ d.2 := by decide

theorem acc_outputs_not_lig_keys :
    ∀ e ∈ ligatures, ∀ d ∈ brokenAccents, d.2.2 ≠ e.1 := by decide

theorem acc_outputs_not_acc_key_chars :
    ∀ e ∈ brokenAccents, ∀ d ∈ brokenAccents, d.2.2 ≠ e.1 ∧ d.2.2 ≠ e.2.1 := by decide

theorem fixText_no_lig_keys {s : List Char} :
    ∀ e ∈ ligatures, e.1 ∉ fixText s := by
  intro e he
  unfold fixText fixAccents
  refine accFold_not_mem (fun d hd => acc_outputs_not_lig_keys e he d hd) ?_
  unfold fixLigatures
  exact ligFold_clears ⟨e.2, by simpa using he⟩
    (fun d hd => lig_keys_not_in_outputs e he d hd) _

theorem fixText_no_acc_keys {s : List Char} :
    ∀ e ∈ brokenAccents, hasPair e.1 e.2.1 (fixText s) = false := by
  intro e he
  unfold fixText fixAccents
  exact accFold_clears ⟨e.2.2, by simpa using he⟩
    (fun d hd => acc_outputs_not_acc_key_chars e he d hd) _

/-! ## Lemmas about `removeBlacklisted` and `cleanText` -/

theorem rb_fold_subset {z : Char} :
    ∀ (l : List Char) {acc : List Char},
      z ∈ l.foldl (fun t c => if c ∈ blackListedChars then replaceChar c [] t else t) acc →
      z ∈ acc := by
  intro l
  induction l with
  | nil => intro acc h; simpa using h
  | cons c cs ih =>
    intro acc h
    rw [List.foldl_cons] at h
    have h2 := ih h
    by_cases hc : c ∈ blackListedChars
    · rw [if_pos hc] at h2
      rcases mem_replaceChar h2 with ⟨h3, _⟩ | h4
      · exact h3
      · simp at h4
    · rwa [if_neg hc] at h2

theorem rb_fold_removes {z : Char} (hz : z ∈ blackListedChars) :
    ∀ (l : List Char) {acc : List Char}, z ∈ l →
      z ∉ l.foldl (fun t c => if c ∈ blackListedChars then replaceChar c [] t else t) acc := by
  intro l
  induction l with
  | nil => intro acc h; simp at h
  | cons c cs ih =>
    intro acc hl
    rw [List.foldl_cons]
    by_cases hzc : z = c
    · rw [← hzc, if_pos hz]
      intro hmem
      exact replaceChar_self_not_mem (List.not_mem_nil z) (rb_fold_subset cs hmem)
    · have hz_tail : z ∈ cs := by
        rcases List.mem_cons.mp hl with h1 | h2
        · exact absurd h1 hzc
        · exact h2
      exact ih hz_tail

/-- The blacklist-removal loop of `cleanText` eliminates every blacklisted
codepoint, whatever the input. -/
theorem removeBlacklisted_no_blacklisted {t : List Char} {c : Char}
    (hc : c ∈ blackListedChars) : c ∉ removeBlacklisted t := by
  unfold removeBlacklisted
  by_cases hmem : c ∈ t
  · exact rb_fold_removes hc t hmem
  · intro h; exact hmem (rb_fold_subset t h)

theorem cleanText_no_blacklisted {ffy : List Char → List Char}
    (hffy : PreservesBlacklistFree ffy) {t : List Char} {c : Char}
    (hc : c ∈ blackListedChars) : c ∉ cleanText ffy t := by
  unfold cleanText
  exact hffy (removeBlacklisted t) (fun d hd => removeBlacklisted_no_blacklisted hd) c hc

/-! ## Lemmas about `checkInvalidChars` -/

theorem foldl_invalid_eq_or :
    ∀ (w : List Char) (b : Bool),
      w.foldl (fun isInvalid c => if charInvalid c then true else isInvalid) b
        = (b || w.any charInvalid) := by
  intro w
  induction w with
  | nil => intro b; simp
  | cons c cs ih =>
    intro b
    rw [List.foldl_cons, List.any_cons, ih]
    by_cases h : charInvalid c = true
    · simp [h]
    · simp [Bool.eq_false_iff.mpr h]

theorem checkInvalidChars_eq_any (w : List Char) :
    checkInvalidChars w = w.any charInvalid := by
  unfold checkInvalidChars
  rw [foldl_invalid_eq_or]
  simp

/-! ## Lemmas about `finalFS` -/

theorem finalFS_one_write (p a : List Char) : finalFS [(p, a)] = [(p, a)] := by
  simp [finalFS, setFile]

theorem finalFS_two_writes (p a b : List Char) :
    finalFS [(p, a), (p, b)] = [(p, b)] := by
  simp [finalFS, setFile]

/-! ## Branch lemmas for `transcribePDF` -/

theorem transcribePDF_fault {ffy : List Char → List Char} {pdfFile rawText : List Char}
    (h : checktextQuality (fixText rawText) = none) :
    transcribePDF ffy pdfFile rawText = ⟨[(getNewTXTPath pdfFile, rawText)], none, 0⟩ := by
  simp only [transcribePDF, h]

theorem transcribePDF_accept {ffy : List Char → List Char} {pdfFile rawText : List Char}
    {q : ℚ} (h : checktextQuality (fixText rawText) = some q)
    (hlt : qualityScoreThreshold < q) :
    transcribePDF ffy pdfFile rawText =
      ⟨[(getNewTXTPath pdfFile, rawText),
        (getNewTXTPath pdfFile, cleanText ffy (fixText rawText))],
        some Outcome.Accepted, 0⟩ := by
  simp only [transcribePDF, h]
  exact if_pos hlt

theorem transcribePDF_reject {ffy : List Char → List Char} {pdfFile rawText : List Char}
    {q : ℚ} (h : checktextQuality (fixText rawText) = some q)
    (hnlt : ¬ qualityScoreThreshold < q) :
    transcribePDF ffy pdfFile rawText =
      ⟨[(getNewTXTPath pdfFile, rawText)], some Outcome.RejectedLowQuality, 0⟩ := by
  simp only [transcribePDF, h]
  exact if_neg hnlt

/-! ## Concrete score evaluations

`Rat` arithmetic does not reduce by `decide` (its normalization runs through
well-founded `Nat.gcd`), so each concrete score is computed in two stages: the word
counts by kernel evaluation, the rational arithmetic by `norm_num`. -/

theorem score_smiley : checktextQuality (fixText "☺".data) = some 0 := by
  have h1 : ((textSlicer (fixText "☺".data)).filter
      (fun w => checkInvalidChars w)).length = 1 := by decide
  have h2 : ((textSlicer (fixText "☺".data)).filter
      (fun w => !checkInvalidChars w)).length = 0 := by decide
  simp only [checktextQuality, h1, h2]
  norm_num

theorem score_currency : checktextQuality (fixText "¤".data) = some 0 := by
  have h1 : ((textSlicer (fixText "¤".data)).filter
      (fun w => checkInvalidChars w)).length = 1 := by decide
  have h2 : ((textSlicer (fixText "¤".data)).filter
      (fun w => !checkInvalidChars w)).length = 0 := by decide
  simp only [checktextQuality, h1, h2]
  norm_num

theorem score_hello : checktextQuality (fixText "hello".data) = some 1 := by
  have h1 : ((textSlicer (fixText "hello".data)).filter
      (fun w => checkInvalidChars w)).length = 0 := by decide
  have h2 : ((textSlicer (fixText "hello".data)).filter
      (fun w => !checkInvalidChars w)).length = 1 := by decide
  simp only [checktextQuality, h1, h2]
  norm_num

theorem score_boundary :
    checktextQuality
      (fixText "☺ ☺ a a a a a a a a a a a a a a a a a a a a a a a".data) =
      some (23 / 25) := by
  have h1 : ((textSlicer
      (fixText "☺ ☺ a a a a a a a a a a a a a a a a a a a a a a a".data)).filter
      (fun w => checkInvalidChars w)).length = 2 := by decide
  have h2 : ((textSlicer
      (fixText "☺ ☺ a a a a a a a a a a a a a a a a a a a a a a a".data)).filter
      (fun w => !checkInvalidChars w)).length = 23 := by decide
  simp only [checktextQuality, h1, h2]
  norm_num

/-! ## Claim theorems -/

/-- Claim C1.  The claim says `score` is total, never faults, and returns 1.0 on a
zero-word input.  The code contradicts this: `checktextQuality` computes
`1 - invalidWords / (invalidWords + validWords)` and raises `ZeroDivisionError`
(modelled as `none`) on the empty string and on whitespace-only text, instead of
returning the value 1.0 the spec requires. -/
theorem C1_score_faults_on_zero_word_input :
    checktextQuality "".data = none ∧ checktextQuality "  \t \n ".data = none := by
  exact ⟨rfl, rfl⟩

/-- Claim C2: a document is Accepted iff its repaired text's quality score is
strictly greater than the configured threshold 0.92; a score exactly equal to the
threshold yields RejectedLowQuality; a score strictly above it leads to the cleaned
text being written. -/
theorem C2_accepted_iff_score_strictly_above_threshold
    (ffy : List Char → List Char) (pdfFile rawText : List Char) (q : ℚ)
    (hq : checktextQuality (fixText rawText) = some q) :
    ((transcribePDF ffy pdfFile rawText).outcome = some Outcome.Accepted ↔
      qualityScoreThreshold < q)
    ∧ (q = qualityScoreThreshold →
        (transcribePDF ffy pdfFile rawText).outcome = some Outcome.RejectedLowQuality)
    ∧ (qualityScoreThreshold < q →
        (transcribePDF ffy pdfFile rawText).writes =
          [(getNewTXTPath pdfFile, rawText),
           (getNewTXTPath pdfFile, cleanText ffy (fixText rawText))]) := by
  by_cases h : qualityScoreThreshold < q
  · rw [transcribePDF_accept hq h]
    exact ⟨⟨fun _ => h, fun _ => rfl⟩,
      fun heq => absurd (heq ▸ h) (lt_irrefl _), fun _ => rfl⟩
  · rw [transcribePDF_reject hq h]
    refine ⟨⟨fun hacc => ?_, fun hlt => absurd hlt h⟩, fun _ => rfl,
      fun hlt => absurd hlt h⟩
    simp at hacc

/-- Boundary witness for C2: 25 words of which 2 are invalid score exactly
23/25 = 0.92, equal to the threshold, and the document is rejected. -/
theorem C2_witness :
    (transcribePDF (fun s => s) "doc.pdf".data
      "☺ ☺ a a a a a a a a a a a a a a a a a a a a a a a".data).outcome =
      some Outcome.RejectedLowQuality :=
  (C2_accepted_iff_score_strictly_above_threshold (fun s => s) "doc.pdf".data
    ("☺ ☺ a a a a a a a a a a a a a a a a a a a a a a a".data) (23 / 25)
    score_boundary).2.1 (by norm_num [qualityScoreThreshold])

/-- Claim C3: a character in both the whitelist and the blacklist is classified
Allowed (the whitelist check precedes the blacklist check), while a blacklisted
character that is not whitelisted, not an allowed escape, and inside an allowed
range is classified Invalid (the blacklist only overrides range-won allowance). -/
theorem C3_whitelist_wins_over_blacklist (c d : Char)
    (hcw : c ∈ whiteListedChars) (_hcb : c ∈ blackListedChars)
    (hdb : d ∈ blackListedChars) (hdw : d ∉ whiteListedChars)
    (hde : d ∉ allowedEscapedChars)
    (hdr : allowedChars.any (fun r => r.1 ≤ d.toNat && d.toNat ≤ r.2) = true) :
    charInvalid c = false ∧ charInvalid d = true := by
  constructor
  · unfold charInvalid
    by_cases he : c ∈ allowedEscapedChars
    · rw [if_pos he]
    · rw [if_neg he, if_pos hcw]
  · unfold charInvalid
    rw [if_neg hde, if_neg hdw, if_neg (by simp [hdr]), if_pos hdb]

/-- Witness for C3: `'◦'` is in both lists and classified Allowed; `'¤'` is
blacklisted, range-allowed and classified Invalid. -/
theorem C3_witness : charInvalid '◦' = false ∧ charInvalid '¤' = true :=
  C3_whitelist_wins_over_blacklist '◦' '¤' (by decide) (by decide) (by decide)
    (by decide) (by decide) (by decide)

/-- Claim C4: `clean` removes every blacklisted codepoint from every input.  The
final mojibake-repair collaborator (`ftfy.fix_text`, external to the repository) is
abstract here; the property is proved for every collaborator satisfying the
contract that it does not introduce blacklisted codepoints. -/
theorem C4_clean_removes_all_blacklisted (ffy : List Char → List Char)
    (hffy : PreservesBlacklistFree ffy) (t : List Char) (c : Char)
    (hc : c ∈ blackListedChars) : c ∉ cleanText ffy t :=
  cleanText_no_blacklisted hffy hc

/-- Witness for C4: the bullet `'•'` is removed from a concrete input under the
identity collaborator. -/
theorem C4_witness : '•' ∉ cleanText (fun s => s) "a•b".data :=
  C4_clean_removes_all_blacklisted (fun s => s) (fun _ h c hc => h c hc) "a•b".data
    '•' (by decide)

/-- Claim C5: `repair` (the ligature pass followed by the broken-accent pass) is
idempotent: a second application changes nothing, because a full pass leaves no
occurrence of any ligature key or broken-accent key in its output. -/
theorem C5_fixText_idempotent (t : List Char) : fixText (fixText t) = fixText t := by
  have h1 : fixLigatures (fixText t) = fixText t := by
    unfold fixLigatures
    exact ligFold_id (fun e he => fixText_no_lig_keys e he)
  have h2 : fixAccents (fixText t) = fixText t := by
    unfold fixAccents
    exact accFold_id (fun e he => fixText_no_acc_keys e he)
  calc fixText (fixText t) = fixAccents (fixLigatures (fixText t)) := rfl
    _ = fixAccents (fixText t) := by rw [h1]
    _ = fixText t := h2

/-- Claim C6.  The claim says a document failing the threshold triggers exactly one
OCR fallback attempt and a reported terminal rejection.  The code contradicts this:
`pytesseract` is never invoked (the OCR-invocation count is 0 on every path), and on
a failing score the function simply returns, leaving only the raw-text write — the
document is dropped silently with no fallback and no report. -/
theorem C6_no_ocr_fallback_ever :
    (∀ (ffy : List Char → List Char) (pdfFile rawText : List Char),
      (transcribePDF ffy pdfFile rawText).ocrCalls = 0)
    ∧ transcribePDF (fun s => s) "bad.pdf".data "☺".data =
        ⟨[(getNewTXTPath "bad.pdf".data, "☺".data)],
          some Outcome.RejectedLowQuality, 0⟩ := by
  constructor
  · intro ffy pdfFile rawText
    cases hcq : checktextQuality (fixText rawText) with
    | none => rw [transcribePDF_fault hcq]
    | some q =>
      by_cases h : qualityScoreThreshold < q
      · rw [transcribePDF_accept hcq h]
      · rw [transcribePDF_reject hcq h]
  · exact transcribePDF_reject score_smiley (by norm_num [qualityScoreThreshold])

/-- Claim C7: for an accepted document exactly one file is persisted, at the path
derived by replacing the four-character source extension with `.txt`, holding
exactly `clean(repair(rawText))`. -/
theorem C7_accepted_persists_exactly_cleaned_text (ffy : List Char → List Char)
    (pdfFile rawText : List Char)
    (h : (transcribePDF ffy pdfFile rawText).outcome = some Outcome.Accepted) :
    finalFS (transcribePDF ffy pdfFile rawText).writes =
      [(getNewTXTPath pdfFile, cleanText ffy (fixText rawText))]
    ∧ ∀ stem : List Char, pdfFile = stem ++ ".pdf".data →
        getNewTXTPath pdfFile = testTXTDir ++ ( '/' :: (stem ++ ".txt".data)) := by
  constructor
  · cases hcq : checktextQuality (fixText rawText) with
    | none => rw [transcribePDF_fault hcq] at h; simp at h
    | some q =>
      by_cases hlt : qualityScoreThreshold < q
      · rw [transcribePDF_accept hcq hlt]
        exact finalFS_two_writes _ _ _
      · rw [transcribePDF_reject hcq hlt] at h
        simp at h
  · intro stem hstem
    subst hstem
    unfold getNewTXTPath
    have h4 : (".pdf".data).length = 4 := rfl
    rw [List.length_append, h4, Nat.add_sub_cancel]
    have htake : (stem ++ ".pdf".data).take stem.length = stem := by
      rw [List.take_append_eq_append_take, List.take_length, Nat.sub_self]
      simp
    rw [htake]

/-- Witness for C7 on an accepted document (`"hello"` scores 1 > 0.92). -/
theorem C7_witness :
    finalFS (transcribePDF (fun s => s) "doc.pdf".data "hello".data).writes =
      [(getNewTXTPath "doc.pdf".data, cleanText (fun s => s) (fixText "hello".data))] :=
  (C7_accepted_persists_exactly_cleaned_text (fun s => s) "doc.pdf".data "hello".data
    (by rw [transcribePDF_accept score_hello (by norm_num [qualityScoreThreshold])])).1

/-- Claim C8: a word is invalid iff it contains at least one Invalid character, and
the empty word is valid. -/
theorem C8_word_invalid_iff_some_char_invalid :
    (∀ w : List Char, checkInvalidChars w = true ↔ ∃ c ∈ w, charInvalid c = true)
    ∧ checkInvalidChars [] = false := by
  constructor
  · intro w
    rw [checkInvalidChars_eq_any, List.any_eq_true]
  · rfl

/-- Claim C9: the raw extractor output is written to the output `.txt` path before
scoring (it is the first write), and when the document is rejected no further write
happens, so the persisted file still holds the raw text. -/
theorem C9_raw_persisted_first_and_kept_on_rejection
    (ffy : List Char → List Char) (pdfFile rawText : List Char) :
    (transcribePDF ffy pdfFile rawText).writes.head? =
      some (getNewTXTPath pdfFile, rawText)
    ∧ ((transcribePDF ffy pdfFile rawText).outcome = some Outcome.RejectedLowQuality →
        finalFS (transcribePDF ffy pdfFile rawText).writes =
          [(getNewTXTPath pdfFile, rawText)]) := by
  cases hcq : checktextQuality (fixText rawText) with
  | none =>
    rw [transcribePDF_fault hcq]
    exact ⟨rfl, fun _ => finalFS_one_write _ _⟩
  | some q =>
    by_cases hlt : qualityScoreThreshold < q
    · rw [transcribePDF_accept hcq hlt]
      refine ⟨rfl, fun hco => ?_⟩
      simp at hco
    · rw [transcribePDF_reject hcq hlt]
      exact ⟨rfl, fun _ => finalFS_one_write _ _⟩

/-- Witness for C9: a rejected document (a lone `'¤'` scores 0) leaves exactly the
raw-text file. -/
theorem C9_witness :
    finalFS (transcribePDF (fun s => s) "low.pdf".data "¤".data).writes =
      [(getNewTXTPath "low.pdf".data, "¤".data)] :=
  (C9_raw_persisted_first_and_kept_on_rejection (fun s => s) "low.pdf".data
    "¤".data).2
    (by rw [transcribePDF_reject score_currency (by norm_num [qualityScoreThreshold])])

/-- Claim C10: `'◦'` and `'˚'` are in both the whitelist and the blacklist; the
classifier marks them Allowed (so they never invalidate a word or lower the score),
yet `clean` deletes them from every input (under the same collaborator contract as
C4). -/
theorem C10_overlap_chars_allowed_yet_cleaned (ffy : List Char → List Char)
    (hffy : PreservesBlacklistFree ffy) (t : List Char) :
    ( '◦' ∈ whiteListedChars ∧ '◦' ∈ blackListedChars ∧ charInvalid '◦' = false)
    ∧ ( '˚' ∈ whiteListedChars ∧ '˚' ∈ blackListedChars ∧ charInvalid '˚' = false)
    ∧ '◦' ∉ cleanText ffy t ∧ '˚' ∉ cleanText ffy t := by
  refine ⟨by decide, by decide, ?_, ?_⟩
  · exact cleanText_no_blacklisted hffy (by decide)
  · exact cleanText_no_blacklisted hffy (by decide)

/-- Witness for C10 under the identity collaborator on a concrete input. -/
theorem C10_witness :
    '◦' ∉ cleanText (fun s => s) "x◦y˚z".data ∧
      '˚' ∉ cleanText (fun s => s) "x◦y˚z".data := by
  have h := C10_overlap_chars_allowed_yet_cleaned (fun s => s)
    (fun _ hbf c hc => hbf c hc) "x◦y˚z".data
  exact ⟨h.2.2.1, h.2.2.2⟩

end Nerve
